import Mathlib

/-!
Shallow embedding of `btgym/agent/memory.py` (class `BTgymReplayMemory`).

The memory holds, per schema leaf, a backing array of shape
`[capacity, max_episode_length, *dims]` plus an `episode_length` array, a
one-episode staging buffer of shape `[max_episode_length, *dims]`, and the
cursor variables `local_step`, `_mem_current_size`, `_mem_cyclic_pointer`
and the episode counter.

The recursive per-leaf constructors (`_var_constructor`,
`_feed_buffer_op_constructor`, `_feed_episode_op_constructor`,
`_get_episode_op_constructor`, `_get_experience_batch_op_constructor`)
apply one and the same assignment or slice at every leaf of the
(arbitrarily nested) schema, so the model carries the four mandatory
top-level leaves `action`, `reward`, `done`, `state_next` with generic
element types `A`, `R`, `S` (the `done` leaf is boolean); any further
schema leaf receives exactly the same treatment as one of these.

Machine integers (int32 tensorflow variables and Python ints) are modelled
as `ℤ`; array leaves are modelled as total functions of `ℤ` indices (the
backing store's bounds behaviour is out of scope per the backend contract;
theorems about reads only use indices the code actually produces, which
are shown nonnegative).  float32 sampling arithmetic is modelled exactly
over `ℚ`, with the int32 cast as truncation toward zero.
-/

namespace BTgymReplay

/-- Construction parameters: `capacity = memory_shape[0] = max_size // max_episode_length`,
`maxLen = memory_shape[1] = max_episode_length`, and the sampling `batch_size`. -/
structure Config where
  capacity : ℤ
  maxLen : ℤ
  batchSize : ℤ

/-- One experience record: one value per mandatory top-level schema leaf.
The `done` leaf doubles as the episode-termination flag read by
`_add_experience`. -/
structure Record (A R S : Type) where
  action : A
  reward : R
  done : Bool
  state_next : S

/-- Staging buffer (`self.buffer`): per leaf an array
`[max_episode_length, *dims]`, modelled as a function of the row index. -/
structure StagingBuffer (A R S : Type) where
  action : ℤ → A
  reward : ℤ → R
  done : ℤ → Bool
  state_next : ℤ → S

/-- Field store (`self.memory`): per leaf an array
`[capacity, max_episode_length, *dims]`, plus the top-level
`episode_length` array (initialised with `tf.ones`). -/
structure Memory (A R S : Type) where
  action : ℤ → ℤ → A
  reward : ℤ → ℤ → R
  done : ℤ → ℤ → Bool
  state_next : ℤ → ℤ → S
  episode_length : ℤ → ℤ

/-- Full state of a `BTgymReplayMemory` instance: staging buffer, field
store, and the cursor variables `local_step`, `_mem_current_size`,
`_mem_cyclic_pointer`, `self.episode`. -/
structure MemState (A R S : Type) where
  buffer : StagingBuffer A R S
  memory : Memory A R S
  local_step : ℤ
  current_size : ℤ
  cyclic_pointer : ℤ
  episode : ℤ

/-- Construction (`_global_variable_constructor`): every leaf array starts
as `tf.zeros` (zero elements `a0`, `r0`, `false`, `s0`), `episode_length`
starts as `tf.ones`, and all cursor variables start at zero. -/
def initState {A R S : Type} (a0 : A) (r0 : R) (s0 : S) : MemState A R S where
  buffer := ⟨fun _ => a0, fun _ => r0, fun _ => false, fun _ => s0⟩
  memory := ⟨fun _ _ => a0, fun _ _ => r0, fun _ _ => false, fun _ _ => s0, fun _ => 1⟩
  local_step := 0
  current_size := 0
  cyclic_pointer := 0
  episode := 0

/-- `_feed_buffer_op_constructor`: per leaf, `tf.assign(var[step, ...], value)`,
writing one record into staging row `step`. -/
def feed_buffer_op {A R S : Type} (buf : StagingBuffer A R S) (step : ℤ)
    (r : Record A R S) : StagingBuffer A R S where
  action := Function.update buf.action step r.action
  reward := Function.update buf.reward step r.reward
  done := Function.update buf.done step r.done
  state_next := Function.update buf.state_next step r.state_next

/-- `_feed_episode_op_constructor` as wired up in `_tf_graph_constructor` and
run by `_add_episode`: at position `_mem_cyclic_pointer`, every non-length
leaf receives the whole staging buffer (`tf.assign(var[pos, ...], buffer)`),
and `episode_length[pos]` receives the fed length `local_step + 1`. -/
def feed_episode_op {A R S : Type} (st : MemState A R S) : Memory A R S where
  action := Function.update st.memory.action st.cyclic_pointer st.buffer.action
  reward := Function.update st.memory.reward st.cyclic_pointer st.buffer.reward
  done := Function.update st.memory.done st.cyclic_pointer st.buffer.done
  state_next := Function.update st.memory.state_next st.cyclic_pointer st.buffer.state_next
  episode_length := Function.update st.memory.episode_length st.cyclic_pointer (st.local_step + 1)

/-- `_add_episode`: run the save op (length fed as `local_step + 1`), reset
`local_step`, bump the episode counter, then grow `current_size` when
`current_size < memory_shape[0] - 1` and wrap or advance the cyclic
pointer, exactly as in the source. -/
def add_episode {A R S : Type} (cfg : Config) (st : MemState A R S) : MemState A R S :=
  let size1 := if st.current_size < cfg.capacity - 1 then st.current_size + 1 else st.current_size
  let ptr1 := if st.cyclic_pointer ≥ size1 then 0 else st.cyclic_pointer + 1
  { st with memory := feed_episode_op st, local_step := 0, episode := st.episode + 1,
            current_size := size1, cyclic_pointer := ptr1 }

/-- `_add_experience`: write the record into staging row `local_step`; then
commit via `_add_episode` when `done or local_step >= memory_shape[1]`,
else increment `local_step`. -/
def add_experience {A R S : Type} (cfg : Config) (st : MemState A R S)
    (r : Record A R S) : MemState A R S :=
  let st1 : MemState A R S := { st with buffer := feed_buffer_op st.buffer st.local_step r }
  if r.done = true ∨ st.local_step ≥ cfg.maxLen then add_episode cfg st1
  else { st1 with local_step := st.local_step + 1 }

/-- Staging-row indices targeted by the buffer writes of a sequence of
`add_experience` calls, in call order. -/
def writtenRows {A R S : Type} (cfg : Config) (st : MemState A R S) :
    List (Record A R S) → List ℤ
  | [] => []
  | r :: rs => st.local_step :: writtenRows cfg (add_experience cfg st r) rs

/-- Memory slots written by commits (value of `_mem_cyclic_pointer` at each
commit) during a sequence of `add_experience` calls. -/
def commitPositions {A R S : Type} (cfg : Config) (st : MemState A R S) :
    List (Record A R S) → List ℤ
  | [] => []
  | r :: rs =>
      if r.done = true ∨ st.local_step ≥ cfg.maxLen then
        st.cyclic_pointer :: commitPositions cfg (add_experience cfg st r) rs
      else
        commitPositions cfg (add_experience cfg st r) rs

/-- `_get_episode_op_constructor`: per non-length leaf the slice
`var[pos, 0:episode_length[pos], ...]`; the `episode_length` leaf itself is
returned unsliced. -/
def episodeRows {A R S : Type} (st : MemState A R S) (i : ℤ) :
    List A × List R × List Bool × List S × ℤ :=
  ((List.range (st.memory.episode_length i).toNat).map (fun k : ℕ => st.memory.action i (k : ℤ)),
   (List.range (st.memory.episode_length i).toNat).map (fun k : ℕ => st.memory.reward i (k : ℤ)),
   (List.range (st.memory.episode_length i).toNat).map (fun k : ℕ => st.memory.done i (k : ℤ)),
   (List.range (st.memory.episode_length i).toNat).map (fun k : ℕ => st.memory.state_next i (k : ℤ)),
   st.memory.episode_length i)

/-- `get_episode`: `assert episode_number <= self._get_current_size(sess)`
(a failed assert raises, modelled as `none`), then run the slicing op. -/
def get_episode {A R S : Type} (st : MemState A R S) (i : ℤ) :
    Option (List A × List R × List Bool × List S × ℤ) :=
  if i ≤ st.current_size then some (episodeRows st i) else none

/-- Cast of a float to int32 (`tf.cast(..., tf.int32)` truncates toward
zero); float32 values are modelled exactly as rationals. -/
def truncCast (q : ℚ) : ℤ := if 0 ≤ q then ⌊q⌋ else ⌈q⌉

/-- Step index computed by `_sample_indices_batch_op_constructor`:
`cast(cast(len - 1, float32) * U, int32) + 1` with `U ~ Uniform[0, 1)`. -/
def sampleStep (len : ℤ) (u : ℚ) : ℤ := truncCast (((len - 1 : ℤ) : ℚ) * u) + 1

/-- `_sample_indices_batch_op_constructor`: the episode indices `es` model
the outputs of `tf.random_uniform(minval=1, maxval=current_size, int32)`
(one per batch slot), the `us` model the float draws from `Uniform[0, 1)`;
each slot pairs a drawn episode with a step sampled from that episode's
recorded length. -/
def sample_indices {A R S : Type} (st : MemState A R S) (es : List ℤ) (us : List ℚ) :
    List (ℤ × ℤ) :=
  List.zipWith (fun e u => (e, sampleStep (st.memory.episode_length e) u)) es us

/-- The sampling op as executed by `sess.run`: the int32 `random_uniform`
kernel requires `minval < maxval`, i.e. `1 < current_size`; otherwise the
run raises (modelled as `none`). -/
def sample_indices_op {A R S : Type} (st : MemState A R S) (es : List ℤ) (us : List ℚ) :
    Option (List (ℤ × ℤ)) :=
  if 1 < st.current_size then some (sample_indices st es us) else none

/-- `sample_random_batch`: `assert self.batch_size <= self.current_mem_size`
(a failed assert raises, modelled as `none`), then run the sampling op. -/
def sample_random_batch {A R S : Type} (cfg : Config) (st : MemState A R S)
    (es : List ℤ) (us : List ℚ) : Option (List (ℤ × ℤ)) :=
  if cfg.batchSize ≤ st.current_size then sample_indices_op st es us else none

/-- The `previous_mask` of `_get_sars_batch_op_constructor`: `batch_size`
stacked rows `(0, 1)`. -/
def previousMask (n : ℕ) : List (ℤ × ℤ) := List.replicate n (0, 1)

/-- Elementwise `tf.subtract` on int32 index pairs. -/
def subtractIndices (idx mask : List (ℤ × ℤ)) : List (ℤ × ℤ) :=
  List.zipWith (fun p m => (p.1 - m.1, p.2 - m.2)) idx mask

/-- `tf.gather_nd` over one leaf: one gathered row per index pair,
preserving the order of the index list. -/
def gatherND {V : Type} (f : ℤ → ℤ → V) (idx : List (ℤ × ℤ)) : List V :=
  idx.map fun p => f p.1 p.2

/-- Output of `_get_sars_batch_op_constructor`: every non-length leaf
gathered at the batch indices, plus the synthesized `state` gathered from
the `state_next` subtree at the indices minus the previous-mask. -/
structure SarsBatch (A R S : Type) where
  action : List A
  reward : List R
  done : List Bool
  state_next : List S
  state : List S

/-- `_get_sars_batch_op_constructor`: gather all non-length leaves at
`batch_indices`, and the `state` field from the `state_next` subtree at
`batch_indices - previous_mask`. -/
def get_sars_batch {A R S : Type} (st : MemState A R S) (idx : List (ℤ × ℤ)) :
    SarsBatch A R S :=
  { action := gatherND st.memory.action idx,
    reward := gatherND st.memory.reward idx,
    done := gatherND st.memory.done idx,
    state_next := gatherND st.memory.state_next idx,
    state := gatherND st.memory.state_next (subtractIndices idx (previousMask idx.length)) }

/-- The record stored at one staging-buffer row (one value per leaf). -/
def readRow {A R S : Type} (buf : StagingBuffer A R S) (i : ℤ) : Record A R S :=
  ⟨buf.action i, buf.reward i, buf.done i, buf.state_next i⟩

/-- The record stored at episode `e`, step `s` of the field store. -/
def readCell {A R S : Type} (m : Memory A R S) (e s : ℤ) : Record A R S :=
  ⟨m.action e s, m.reward e s, m.done e s, m.state_next e s⟩

/-- Repeated staging writes at consecutive rows starting from row `k`. -/
def feedMany {A R S : Type} (buf : StagingBuffer A R S) (k : ℤ) :
    List (Record A R S) → StagingBuffer A R S
  | [] => buf
  | r :: rs => feedMany (feed_buffer_op buf k r) (k + 1) rs

/-- The commit-time cursor-update rule exactly as the claim states it
(spec-side definition for the refinement claim C3): grow `used_size` iff
`used_size < capacity - 1`, then wrap the pointer to `0` iff it is `≥` the
updated `used_size`, else increment it. -/
def commitCursorSpec (capacity size ptr : ℤ) : ℤ × ℤ :=
  let size1 := if size < capacity - 1 then size + 1 else size
  (size1, if ptr ≥ size1 then 0 else ptr + 1)

/-- Pointwise predicate over a list, by recursion (used to state
sampling-domain facts with binder-free instances). -/
def ListAll {α : Type} (P : α → Prop) : List α → Prop
  | [] => True
  | a :: l => P a ∧ ListAll P l

/-- A concrete reachable-shaped state with `current_size = 2` and every
`episode_length` entry equal to `1` (as after two committed one-step
episodes): exercises the sampler on length-1 episodes. -/
def twoEpisodeState : MemState ℤ ℤ ℤ := { initState 0 0 0 with current_size := 2 }

/-- Reading a staging row after one buffer write: the written row holds the
record, every other row is unchanged. -/
theorem readRow_feed {A R S : Type} (buf : StagingBuffer A R S) (k i : ℤ)
    (r : Record A R S) :
    readRow (feed_buffer_op buf k r) i = if i = k then r else readRow buf i := by
  by_cases h : i = k <;>
    simp [readRow, feed_buffer_op, Function.update_apply, h]

/-- Writes at rows `k, k+1, ...` leave any row below `k` unchanged. -/
theorem feedMany_readRow_lt {A R S : Type} :
    ∀ (rs : List (Record A R S)) (buf : StagingBuffer A R S) (k i : ℤ), i < k →
      readRow (feedMany buf k rs) i = readRow buf i
  | [], _, _, _, _ => rfl
  | r :: rs, buf, k, i, h => by
      simp only [feedMany]
      rw [feedMany_readRow_lt rs _ (k + 1) i (by omega), readRow_feed,
        if_neg (by omega)]

/-- Reading back consecutive staging writes: row `k + j` holds the `j`-th
written record. -/
theorem feedMany_readRow {A R S : Type} :
    ∀ (rs : List (Record A R S)) (buf : StagingBuffer A R S) (k : ℤ) (j : ℕ)
      (hj : j < rs.length),
      readRow (feedMany buf k rs) (k + (j : ℤ)) = rs.get ⟨j, hj⟩
  | [], _, _, j, hj => absurd hj (by simp)
  | r :: rs, buf, k, 0, _ => by
      simp only [feedMany]
      rw [feedMany_readRow_lt rs _ (k + 1) _ (by omega), readRow_feed]
      simp
  | r :: rs, buf, k, j + 1, hj => by
      simp only [feedMany]
      have h2 : j < rs.length := by simpa using hj
      have hidx : k + ((j : ℤ) + 1) = (k + 1) + (j : ℤ) := by ring
      push_cast
      rw [hidx, feedMany_readRow rs (feed_buffer_op buf k r) (k + 1) j h2]
      simp

/-- `episode_length` after the save op: set to `local_step + 1` at the
commit position, unchanged elsewhere. -/
theorem epLen_feedEpisode {A R S : Type} (st : MemState A R S) (e : ℤ) :
    (feed_episode_op st).episode_length e =
      if e = st.cyclic_pointer then st.local_step + 1
      else st.memory.episode_length e := by
  by_cases h : e = st.cyclic_pointer <;>
    simp [feed_episode_op, Function.update_apply, h]

/-- Field-store cells after the save op: the commit slot holds the staging
buffer rows, every other slot is unchanged. -/
theorem readCell_feedEpisode {A R S : Type} (st : MemState A R S) (e s : ℤ) :
    readCell (feed_episode_op st) e s =
      if e = st.cyclic_pointer then readRow st.buffer s
      else readCell st.memory e s := by
  by_cases h : e = st.cyclic_pointer <;>
    simp [readCell, readRow, feed_episode_op, Function.update_apply, apply_ite, h]

/-- The commit bookkeeping of `_add_episode` computes exactly the claimed
cursor rule. -/
theorem add_episode_cursor {A R S : Type} (cfg : Config) (st : MemState A R S) :
    ((add_episode cfg st).current_size, (add_episode cfg st).cyclic_pointer) =
      commitCursorSpec cfg.capacity st.current_size st.cyclic_pointer := rfl

/-- A run of `add_experience` calls none of which triggers a commit (all
`done` flags false and all visited `local_step` values below
`max_episode_length`) only appends to the staging buffer and advances
`local_step`. -/
theorem foldl_no_commit {A R S : Type} (cfg : Config) :
    ∀ (rs : List (Record A R S)) (st : MemState A R S),
      (∀ r ∈ rs, r.done = false) →
      st.local_step + (rs.length : ℤ) ≤ cfg.maxLen →
      List.foldl (add_experience cfg) st rs =
        { st with buffer := feedMany st.buffer st.local_step rs,
                  local_step := st.local_step + (rs.length : ℤ) }
  | [], st, _, _ => by simp [feedMany]
  | r :: rs, st, hdone, hlen => by
      have hd : r.done = false := hdone r (by simp)
      have hlen2 : st.local_step + ((rs.length : ℤ) + 1) ≤ cfg.maxLen := by
        simpa [add_comm] using hlen
      have hcond : ¬ (r.done = true ∨ st.local_step ≥ cfg.maxLen) := by
        push_neg
        exact ⟨by simp [hd], by omega⟩
      rw [List.foldl_cons]
      have hstep : add_experience cfg st r =
          { st with buffer := feed_buffer_op st.buffer st.local_step r,
                    local_step := st.local_step + 1 } := by
        simp [add_experience, hcond]
      rw [hstep,
        foldl_no_commit cfg rs _ (fun x hx => hdone x (by simp [hx])) (by simp; omega)]
      simp only [feedMany, List.length_cons]
      congr 1
      push_cast
      ring

/-- A memory slot that is never a commit target keeps its `episode_length`
entry and its cell contents across any run of `add_experience` calls. -/
theorem foldl_untouched {A R S : Type} (cfg : Config) :
    ∀ (rs : List (Record A R S)) (st : MemState A R S) (i : ℤ),
      i ∉ commitPositions cfg st rs →
      (List.foldl (add_experience cfg) st rs).memory.episode_length i =
          st.memory.episode_length i ∧
        ∀ s, readCell (List.foldl (add_experience cfg) st rs).memory i s =
          readCell st.memory i s
  | [], _, _, _ => ⟨rfl, fun _ => rfl⟩
  | r :: rs, st, i, hni => by
      rw [List.foldl_cons]
      by_cases hc : r.done = true ∨ st.local_step ≥ cfg.maxLen
      · have hsplit : i ≠ st.cyclic_pointer ∧
            i ∉ commitPositions cfg (add_experience cfg st r) rs := by
          constructor
          · intro h
            exact hni (by simp [commitPositions, hc, h])
          · intro h
            exact hni (by simp [commitPositions, hc, h])
        obtain ⟨hne, hni2⟩ := hsplit
        have ih := foldl_untouched cfg rs (add_experience cfg st r) i hni2
        have hmem : (add_experience cfg st r).memory =
            feed_episode_op { st with buffer := feed_buffer_op st.buffer st.local_step r } := by
          simp [add_experience, hc, add_episode]
        refine ⟨?_, ?_⟩
        · rw [ih.1, hmem, epLen_feedEpisode]
          simp [hne]
        · intro s
          rw [ih.2 s, hmem, readCell_feedEpisode]
          simp [hne]
      · have hni2 : i ∉ commitPositions cfg (add_experience cfg st r) rs := by
          intro h
          exact hni (by simp [commitPositions, hc, h])
        have ih := foldl_untouched cfg rs (add_experience cfg st r) i hni2
        have hmem : (add_experience cfg st r).memory = st.memory := by
          simp [add_experience, hc]
        exact ⟨by rw [ih.1, hmem], fun s => by rw [ih.2 s, hmem]⟩

/-- Projection of the commit bookkeeping: the updated `current_size`. -/
theorem add_episode_current_size {A R S : Type} (cfg : Config) (st : MemState A R S) :
    (add_episode cfg st).current_size =
      if st.current_size < cfg.capacity - 1 then st.current_size + 1
      else st.current_size := rfl

/-- Projection of the commit bookkeeping: the updated `cyclic_pointer`
(compared against the already-updated size). -/
theorem add_episode_cyclic_pointer {A R S : Type} (cfg : Config) (st : MemState A R S) :
    (add_episode cfg st).cyclic_pointer =
      if st.cyclic_pointer ≥
          (if st.current_size < cfg.capacity - 1 then st.current_size + 1
           else st.current_size) then 0
      else st.cyclic_pointer + 1 := rfl

/-- Cursor invariant of the commit bookkeeping: starting from
`(used_size, write_pointer) = (0, 0)`, every number of commits leaves
`0 ≤ write_pointer ≤ used_size ≤ capacity - 1`. -/
theorem cursor_invariant {A R S : Type} (cfg : Config) (hcap : 1 ≤ cfg.capacity)
    (st0 : MemState A R S) (hs : st0.current_size = 0) (hp : st0.cyclic_pointer = 0) :
    ∀ k : ℕ, 0 ≤ ((add_episode cfg)^[k] st0).cyclic_pointer ∧
      ((add_episode cfg)^[k] st0).cyclic_pointer ≤ ((add_episode cfg)^[k] st0).current_size ∧
      ((add_episode cfg)^[k] st0).current_size ≤ cfg.capacity - 1
  | 0 => by
      simp only [Function.iterate_zero, id_eq, hs, hp]
      omega
  | k + 1 => by
      have ih := cursor_invariant cfg hcap st0 hs hp k
      rw [Function.iterate_succ_apply', add_episode_cyclic_pointer,
        add_episode_current_size]
      split_ifs <;> omega

/-- Claim C2: starting from the initial cursor state
`(used_size, write_pointer) = (0, 0)`, after any number of episode commits
the invariant `used_size ≤ capacity_episodes` and
`0 ≤ write_pointer < capacity_episodes` holds. -/
theorem C2_capacity_bound {A R S : Type} (cfg : Config) (hcap : 1 ≤ cfg.capacity)
    (st0 : MemState A R S) (hs : st0.current_size = 0) (hp : st0.cyclic_pointer = 0)
    (k : ℕ) :
    ((add_episode cfg)^[k] st0).current_size ≤ cfg.capacity ∧
      0 ≤ ((add_episode cfg)^[k] st0).cyclic_pointer ∧
      ((add_episode cfg)^[k] st0).cyclic_pointer < cfg.capacity := by
  obtain ⟨h1, h2, h3⟩ := cursor_invariant cfg hcap st0 hs hp k
  exact ⟨by omega, h1, by omega⟩

/-- Witness for C2 at capacity 3 and five commits. -/
theorem C2_capacity_bound_witness :
    (1 : ℤ) ≤ (⟨3, 2, 32⟩ : Config).capacity ∧
      (((add_episode (⟨3, 2, 32⟩ : Config))^[5] (initState (0 : ℤ) (0 : ℤ) (0 : ℤ))).current_size ≤ 3 ∧
        0 ≤ ((add_episode (⟨3, 2, 32⟩ : Config))^[5] (initState (0 : ℤ) (0 : ℤ) (0 : ℤ))).cyclic_pointer ∧
        ((add_episode (⟨3, 2, 32⟩ : Config))^[5] (initState (0 : ℤ) (0 : ℤ) (0 : ℤ))).cyclic_pointer < 3) :=
  ⟨by decide, C2_capacity_bound ⟨3, 2, 32⟩ (by decide) (initState 0 0 0) rfl rfl 5⟩

/-- Counterexample to claim C3's final sentence: with
`capacity_episodes = 1`, the first ever commit leaves `used_size = 0` and
`write_pointer = 0` (not `1` and `1` as claimed). -/
theorem C3_first_commit_cex :
    (add_episode (⟨1, 1, 32⟩ : Config) (initState (0 : ℤ) (0 : ℤ) (0 : ℤ))).current_size = 0 ∧
      (add_episode (⟨1, 1, 32⟩ : Config) (initState (0 : ℤ) (0 : ℤ) (0 : ℤ))).cyclic_pointer = 0 ∧
      ¬ ((add_episode (⟨1, 1, 32⟩ : Config) (initState (0 : ℤ) (0 : ℤ) (0 : ℤ))).current_size = 1 ∧
        (add_episode (⟨1, 1, 32⟩ : Config) (initState (0 : ℤ) (0 : ℤ) (0 : ℤ))).cyclic_pointer = 1) := by
  decide

/-- Claim C3 (amended): each commit updates the cursor state by the exact
claimed rule (`used_size` grows iff `used_size < capacity - 1`, then the
pointer wraps to 0 iff it is `≥` the updated `used_size`, else it
increments); and the first ever commit transitions `used_size` from 0 to 1
and `write_pointer` from 0 to 1 provided `capacity_episodes ≥ 2`. -/
theorem C3_commit_rule {A R S : Type} (cfg : Config) (st : MemState A R S)
    (a0 : A) (r0 : R) (s0 : S) (hcap : 2 ≤ cfg.capacity) :
    ((add_episode cfg st).current_size, (add_episode cfg st).cyclic_pointer) =
        commitCursorSpec cfg.capacity st.current_size st.cyclic_pointer ∧
      (add_episode cfg (initState a0 r0 s0)).current_size = 1 ∧
      (add_episode cfg (initState a0 r0 s0)).cyclic_pointer = 1 := by
  refine ⟨rfl, ?_, ?_⟩
  · rw [add_episode_current_size]
    show (if (0 : ℤ) < cfg.capacity - 1 then (0 : ℤ) + 1 else (0 : ℤ)) = 1
    rw [if_pos (show (0 : ℤ) < cfg.capacity - 1 by omega)]
    norm_num
  · rw [add_episode_cyclic_pointer]
    show (if (0 : ℤ) ≥ (if (0 : ℤ) < cfg.capacity - 1 then (0 : ℤ) + 1 else (0 : ℤ))
        then (0 : ℤ) else (0 : ℤ) + 1) = 1
    rw [if_pos (show (0 : ℤ) < cfg.capacity - 1 by omega),
      if_neg (show ¬ ((0 : ℤ) ≥ (0 : ℤ) + 1) by omega)]
    norm_num

/-- Witness for C3 (amended) at capacity 3. -/
theorem C3_commit_rule_witness :
    (2 : ℤ) ≤ (⟨3, 2, 32⟩ : Config).capacity ∧
      (((add_episode (⟨3, 2, 32⟩ : Config) (initState (0 : ℤ) (0 : ℤ) (0 : ℤ))).current_size,
          (add_episode (⟨3, 2, 32⟩ : Config) (initState (0 : ℤ) (0 : ℤ) (0 : ℤ))).cyclic_pointer) =
          commitCursorSpec 3 0 0 ∧
        (add_episode (⟨3, 2, 32⟩ : Config) (initState (0 : ℤ) (0 : ℤ) (0 : ℤ))).current_size = 1 ∧
        (add_episode (⟨3, 2, 32⟩ : Config) (initState (0 : ℤ) (0 : ℤ) (0 : ℤ))).cyclic_pointer = 1) :=
  ⟨by decide, C3_commit_rule ⟨3, 2, 32⟩ (initState 0 0 0) 0 0 0 (by decide)⟩

/-- Claim C1, evaluated at the failing input (`max_episode_length = 2`,
records with `done = false`): after the second call `local_step + 1`
equals `max_episode_length` but no commit has happened (`episode = 0`,
`local_step = 2`, `used_size = 0`); only a third call commits, recording
`episode_length[0] = 3 > max_episode_length`, its buffer write having
targeted row 2 (outside the 2-row staging buffer). -/
theorem C1_commit_condition_eval :
    (List.foldl (add_experience (⟨3, 2, 32⟩ : Config)) (initState (0 : ℤ) (0 : ℤ) (0 : ℤ))
        [⟨0, 0, false, 0⟩, ⟨0, 0, false, 0⟩]).episode = 0 ∧
      (List.foldl (add_experience (⟨3, 2, 32⟩ : Config)) (initState (0 : ℤ) (0 : ℤ) (0 : ℤ))
        [⟨0, 0, false, 0⟩, ⟨0, 0, false, 0⟩]).local_step = 2 ∧
      (List.foldl (add_experience (⟨3, 2, 32⟩ : Config)) (initState (0 : ℤ) (0 : ℤ) (0 : ℤ))
        [⟨0, 0, false, 0⟩, ⟨0, 0, false, 0⟩]).current_size = 0 ∧
      (List.foldl (add_experience (⟨3, 2, 32⟩ : Config)) (initState (0 : ℤ) (0 : ℤ) (0 : ℤ))
        [⟨0, 0, false, 0⟩, ⟨0, 0, false, 0⟩, ⟨0, 0, false, 0⟩]).episode = 1 ∧
      (List.foldl (add_experience (⟨3, 2, 32⟩ : Config)) (initState (0 : ℤ) (0 : ℤ) (0 : ℤ))
        [⟨0, 0, false, 0⟩, ⟨0, 0, false, 0⟩, ⟨0, 0, false, 0⟩]).memory.episode_length 0 = 3 ∧
      writtenRows (⟨3, 2, 32⟩ : Config) (initState (0 : ℤ) (0 : ℤ) (0 : ℤ))
        [⟨0, 0, false, 0⟩, ⟨0, 0, false, 0⟩, ⟨0, 0, false, 0⟩] = [0, 1, 2] := by
  decide

/-- Claim C9, evaluated at the failing input (`max_episode_length = 1`, two
records with `done = false`): the second `add_experience` call writes
staging row 1, which is not below `max_episode_length`, so the write is
outside the staging buffer's first dimension. -/
theorem C9_row_bound_eval :
    writtenRows (⟨3, 1, 32⟩ : Config) (initState (0 : ℤ) (0 : ℤ) (0 : ℤ))
        [⟨0, 0, false, 0⟩, ⟨0, 0, false, 0⟩] = [0, 1] ∧
      ¬ (∀ i ∈ writtenRows (⟨3, 1, 32⟩ : Config) (initState (0 : ℤ) (0 : ℤ) (0 : ℤ))
          [⟨0, 0, false, 0⟩, ⟨0, 0, false, 0⟩], i < (⟨3, 1, 32⟩ : Config).maxLen) := by
  decide

/-- After a commit, the `episode_length` entry at the commit slot is the fed
length `local_step + 1`. -/
theorem commit_epLen {A R S : Type} (cfg : Config) (st : MemState A R S) :
    (add_episode cfg st).memory.episode_length st.cyclic_pointer = st.local_step + 1 := by
  show (feed_episode_op st).episode_length st.cyclic_pointer = _
  rw [epLen_feedEpisode, if_pos rfl]

/-- After a commit, the cells of the commit slot hold the staging-buffer
rows. -/
theorem commit_cell {A R S : Type} (cfg : Config) (st : MemState A R S) (k : ℤ) :
    readCell (add_episode cfg st).memory st.cyclic_pointer k = readRow st.buffer k := by
  show readCell (feed_episode_op st) st.cyclic_pointer k = _
  rw [readCell_feedEpisode, if_pos rfl]

/-- Consecutive staging writes split across an append. -/
theorem feedMany_append {A R S : Type} :
    ∀ (l1 l2 : List (Record A R S)) (buf : StagingBuffer A R S) (k : ℤ),
      feedMany buf k (l1 ++ l2) = feedMany (feedMany buf k l1) (k + (l1.length : ℤ)) l2
  | [], l2, buf, k => by simp [feedMany]
  | r :: l1, l2, buf, k => by
      show feedMany (feed_buffer_op buf k r) (k + 1) (l1 ++ l2) = _
      rw [feedMany_append l1 l2 (feed_buffer_op buf k r) (k + 1)]
      congr 1
      simp only [List.length_cons]
      push_cast
      ring

/-- Reading back, leaf by leaf, the first `rs.length` staging rows after
writing the records `rs` from row 0 on: each leaf column equals the pushed
values in order. -/
theorem feedMany_leaf_rows {A R S : Type} (rs : List (Record A R S))
    (buf : StagingBuffer A R S) :
    (List.range rs.length).map (fun k : ℕ => (feedMany buf 0 rs).action (k : ℤ)) =
        rs.map Record.action ∧
      (List.range rs.length).map (fun k : ℕ => (feedMany buf 0 rs).reward (k : ℤ)) =
        rs.map Record.reward ∧
      (List.range rs.length).map (fun k : ℕ => (feedMany buf 0 rs).done (k : ℤ)) =
        rs.map Record.done ∧
      (List.range rs.length).map (fun k : ℕ => (feedMany buf 0 rs).state_next (k : ℤ)) =
        rs.map Record.state_next := by
  have hmap : (List.range rs.length).map
      (fun k : ℕ => readRow (feedMany buf 0 rs) (k : ℤ)) = rs := by
    apply List.ext_get (by simp)
    intro n h1 h2
    simp only [List.get_eq_getElem, List.getElem_map, List.getElem_range]
    have h3 : n < rs.length := h2
    have h4 := feedMany_readRow rs buf 0 n h3
    simpa using h4
  refine ⟨?_, ?_, ?_, ?_⟩
  · rw [show (fun k : ℕ => (feedMany buf 0 rs).action (k : ℤ)) =
        Record.action ∘ (fun k : ℕ => readRow (feedMany buf 0 rs) (k : ℤ)) from rfl,
      ← List.map_map, hmap]
  · rw [show (fun k : ℕ => (feedMany buf 0 rs).reward (k : ℤ)) =
        Record.reward ∘ (fun k : ℕ => readRow (feedMany buf 0 rs) (k : ℤ)) from rfl,
      ← List.map_map, hmap]
  · rw [show (fun k : ℕ => (feedMany buf 0 rs).done (k : ℤ)) =
        Record.done ∘ (fun k : ℕ => readRow (feedMany buf 0 rs) (k : ℤ)) from rfl,
      ← List.map_map, hmap]
  · rw [show (fun k : ℕ => (feedMany buf 0 rs).state_next (k : ℤ)) =
        Record.state_next ∘ (fun k : ℕ => readRow (feedMany buf 0 rs) (k : ℤ)) from rfl,
      ← List.map_map, hmap]

/-- `get_episode` at the commit slot, right after a commit of the staged
episode with fed length `L + 1`: the index check passes (the pointer never
exceeds the—only growing—used size) and every leaf returns its first
`L + 1` staging rows. -/
theorem commit_get_episode {A R S : Type} (cfg : Config) (buf : StagingBuffer A R S)
    (mem : Memory A R S) (L size ptr ep : ℤ) (hptr : ptr ≤ size) :
    get_episode (add_episode cfg (⟨buf, mem, L, size, ptr, ep⟩ : MemState A R S)) ptr =
      some ((List.range (L + 1).toNat).map (fun k : ℕ => buf.action (k : ℤ)),
            (List.range (L + 1).toNat).map (fun k : ℕ => buf.reward (k : ℤ)),
            (List.range (L + 1).toNat).map (fun k : ℕ => buf.done (k : ℤ)),
            (List.range (L + 1).toNat).map (fun k : ℕ => buf.state_next (k : ℤ)),
            L + 1) := by
  have hguard : ptr ≤
      (add_episode cfg (⟨buf, mem, L, size, ptr, ep⟩ : MemState A R S)).current_size := by
    rw [add_episode_current_size]
    dsimp only
    split_ifs <;> omega
  have hELen :
      (add_episode cfg (⟨buf, mem, L, size, ptr, ep⟩ : MemState A R S)).memory.episode_length ptr
        = L + 1 := commit_epLen cfg (⟨buf, mem, L, size, ptr, ep⟩ : MemState A R S)
  have hA : ∀ s, (add_episode cfg
        (⟨buf, mem, L, size, ptr, ep⟩ : MemState A R S)).memory.action ptr s = buf.action s :=
    fun s => congrArg Record.action
      (commit_cell cfg (⟨buf, mem, L, size, ptr, ep⟩ : MemState A R S) s)
  have hR : ∀ s, (add_episode cfg
        (⟨buf, mem, L, size, ptr, ep⟩ : MemState A R S)).memory.reward ptr s = buf.reward s :=
    fun s => congrArg Record.reward
      (commit_cell cfg (⟨buf, mem, L, size, ptr, ep⟩ : MemState A R S) s)
  have hD : ∀ s, (add_episode cfg
        (⟨buf, mem, L, size, ptr, ep⟩ : MemState A R S)).memory.done ptr s = buf.done s :=
    fun s => congrArg Record.done
      (commit_cell cfg (⟨buf, mem, L, size, ptr, ep⟩ : MemState A R S) s)
  have hS : ∀ s, (add_episode cfg
        (⟨buf, mem, L, size, ptr, ep⟩ : MemState A R S)).memory.state_next ptr s =
        buf.state_next s :=
    fun s => congrArg Record.state_next
      (commit_cell cfg (⟨buf, mem, L, size, ptr, ep⟩ : MemState A R S) s)
  simp only [get_episode]
  rw [if_pos hguard]
  simp only [episodeRows, hELen, hA, hR, hD, hS]

/-- Claim C4: an episode of `N = rs1.length + 1` steps
(`1 ≤ N ≤ max_episode_length`) pushed by `N` `add_experience` calls, the
last of which carries `done = true` (the only way the source commits an
episode of at most `max_episode_length` steps), is committed at the slot
the write pointer held before the commit; `get_episode` at that slot
returns, for every schema leaf, exactly `N` rows equal in order to the
pushed values, and `episode_length` there equals `N`. -/
theorem C4_episode_roundtrip {A R S : Type} (cfg : Config) (st0 : MemState A R S)
    (rs1 : List (Record A R S)) (rL : Record A R S)
    (hstep : st0.local_step = 0)
    (hp : st0.cyclic_pointer ≤ st0.current_size)
    (hdone : ∀ r ∈ rs1, r.done = false)
    (hlast : rL.done = true)
    (hlen : (rs1.length : ℤ) + 1 ≤ cfg.maxLen) :
    (List.foldl (add_experience cfg) st0 (rs1 ++ [rL])).memory.episode_length
        st0.cyclic_pointer = (rs1.length : ℤ) + 1 ∧
      get_episode (List.foldl (add_experience cfg) st0 (rs1 ++ [rL])) st0.cyclic_pointer
        = some ((rs1 ++ [rL]).map Record.action, (rs1 ++ [rL]).map Record.reward,
            (rs1 ++ [rL]).map Record.done, (rs1 ++ [rL]).map Record.state_next,
            (rs1.length : ℤ) + 1) := by
  obtain ⟨buf0, mem0, ls0, size0, ptr0, ep0⟩ := st0
  obtain rfl : ls0 = 0 := hstep
  have hp2 : ptr0 ≤ size0 := hp
  have hpre := foldl_no_commit cfg rs1 ⟨buf0, mem0, 0, size0, ptr0, ep0⟩ hdone
    (by simp; omega)
  have hfold : List.foldl (add_experience cfg)
      (⟨buf0, mem0, 0, size0, ptr0, ep0⟩ : MemState A R S) (rs1 ++ [rL]) =
      add_episode cfg
        (⟨feed_buffer_op (feedMany buf0 0 rs1) (rs1.length : ℤ) rL, mem0,
          (rs1.length : ℤ), size0, ptr0, ep0⟩ : MemState A R S) := by
    rw [List.foldl_append, hpre, List.foldl_cons, List.foldl_nil]
    simp [add_experience, hlast]
  rw [hfold]
  constructor
  · exact commit_epLen cfg _
  · have hget := commit_get_episode cfg
      (feed_buffer_op (feedMany buf0 0 rs1) (rs1.length : ℤ) rL)
      mem0 (rs1.length : ℤ) size0 ptr0 ep0 hp2
    have hB2 : feed_buffer_op (feedMany buf0 0 rs1) (rs1.length : ℤ) rL =
        feedMany buf0 0 (rs1 ++ [rL]) := by
      rw [feedMany_append]
      simp [feedMany]
    have htn : (((rs1.length : ℤ)) + 1).toNat = (rs1 ++ [rL]).length := by
      simp
    rw [hB2, htn] at hget
    have hrows := feedMany_leaf_rows (rs1 ++ [rL]) buf0
    rw [hB2]
    rw [hget, hrows.1, hrows.2.1, hrows.2.2.1, hrows.2.2.2]

/-- Witness for C4: a three-step episode in a capacity-3, length-3 memory. -/
theorem C4_episode_roundtrip_witness :
    ((⟨7, 8, true, 9⟩ : Record ℤ ℤ ℤ).done = true) ∧
      get_episode (List.foldl (add_experience (⟨3, 3, 32⟩ : Config))
          (initState (0 : ℤ) (0 : ℤ) (0 : ℤ))
          ([⟨1, 2, false, 3⟩, ⟨4, 5, false, 6⟩] ++ [⟨7, 8, true, 9⟩])) 0 =
        some ([1, 4, 7], [2, 5, 8], [false, false, true], [3, 6, 9], 3) := by
  refine ⟨by decide, ?_⟩
  have h := (C4_episode_roundtrip (⟨3, 3, 32⟩ : Config) (initState (0 : ℤ) (0 : ℤ) (0 : ℤ))
    [⟨1, 2, false, 3⟩, ⟨4, 5, false, 6⟩] ⟨7, 8, true, 9⟩ rfl (by decide)
    (by decide) (by decide) (by decide)).2
  simpa [initState] using h

/-- Bounds on the sampled step index: it is always at least 1; it is at most
`episode_length - 1` whenever `episode_length ≥ 2`; and it equals 1 when
`episode_length = 1`. -/
theorem sampleStep_bounds (len : ℤ) (u : ℚ) (hl : 1 ≤ len) (h0 : 0 ≤ u) (h1 : u < 1) :
    1 ≤ sampleStep len u ∧ (2 ≤ len → sampleStep len u ≤ len - 1) ∧
      (len = 1 → sampleStep len u = 1) := by
  have hc0 : (0 : ℚ) ≤ ((len - 1 : ℤ) : ℚ) := by
    exact_mod_cast sub_nonneg.mpr hl
  have hq0 : (0 : ℚ) ≤ ((len - 1 : ℤ) : ℚ) * u := mul_nonneg hc0 h0
  have htr : truncCast (((len - 1 : ℤ) : ℚ) * u) = ⌊((len - 1 : ℤ) : ℚ) * u⌋ := by
    unfold truncCast
    rw [if_pos hq0]
  refine ⟨?_, ?_, ?_⟩
  · have hfl : 0 ≤ ⌊((len - 1 : ℤ) : ℚ) * u⌋ := Int.floor_nonneg.mpr hq0
    simp only [sampleStep, htr]
    omega
  · intro h2
    have hcpos : (0 : ℚ) < ((len - 1 : ℤ) : ℚ) := by
      exact_mod_cast (by omega : (0 : ℤ) < len - 1)
    have hlt : ((len - 1 : ℤ) : ℚ) * u < ((len - 1 : ℤ) : ℚ) :=
      mul_lt_of_lt_one_right hcpos h1
    have hfl : ⌊((len - 1 : ℤ) : ℚ) * u⌋ < len - 1 := by
      rw [Int.floor_lt]
      exact_mod_cast hlt
    simp only [sampleStep, htr]
    omega
  · intro hl1
    subst hl1
    simp [sampleStep, truncCast]

/-- Claim C5 (amended): every pair returned by the sampling op has
`episode_index ∈ [1, used_size)` and
`step_index = 1 + floor((episode_length - 1) * U)`, hence
`step_index ≥ 1` always, `step_index ≤ episode_length - 1` whenever
`episode_length ≥ 2`, and `step_index = 1` (outside the empty claimed
range) when `episode_length = 1`; episode index 0 and step index 0 are
never returned. -/
theorem C5_sampling_domain {A R S : Type} (st : MemState A R S) :
    ∀ (es : List ℤ) (us : List ℚ),
      (∀ e ∈ es, 1 ≤ e ∧ e < st.current_size) →
      (∀ u ∈ us, 0 ≤ u ∧ u < 1) →
      (∀ i, 1 ≤ st.memory.episode_length i) →
      ListAll (fun p : ℤ × ℤ =>
          1 ≤ p.1 ∧ p.1 < st.current_size ∧ 1 ≤ p.2 ∧
            (2 ≤ st.memory.episode_length p.1 → p.2 ≤ st.memory.episode_length p.1 - 1) ∧
            (st.memory.episode_length p.1 = 1 → p.2 = 1))
        (sample_indices st es us)
  | [], _, _, _, _ => by simp [sample_indices, ListAll]
  | _ :: _, [], _, _, _ => by simp [sample_indices, ListAll]
  | e :: es, u :: us, he, hu, hlen => by
      have h1 := he e (by simp)
      have h2 := hu u (by simp)
      have hb := sampleStep_bounds (st.memory.episode_length e) u (hlen e) h2.1 h2.2
      refine ⟨⟨h1.1, h1.2, hb.1, hb.2.1, hb.2.2⟩, ?_⟩
      exact C5_sampling_domain st es us (fun x hx => he x (by simp [hx]))
        (fun x hx => hu x (by simp [hx])) hlen

/-- Counterexample to claim C5 as stated: in a state with `used_size = 2`
and a committed one-step episode at slot 1 (`episode_length = 1`), the
sampler returns step index 1, which is not in the claimed range
`[1, episode_length - 1] = [1, 0]`. -/
theorem C5_step_range_cex :
    sample_indices twoEpisodeState [1] [0] = [(1, 1)] ∧
      twoEpisodeState.memory.episode_length 1 = 1 ∧
      ¬ ((1 : ℤ) ≤ twoEpisodeState.memory.episode_length 1 - 1) := by
  refine ⟨?_, rfl, by decide⟩
  norm_num [sample_indices, sampleStep, truncCast, twoEpisodeState, initState]

/-- Witness for C5 (amended) on a concrete two-episode state. -/
theorem C5_sampling_domain_witness :
    (∀ u ∈ ([1/2] : List ℚ), 0 ≤ u ∧ u < 1) ∧
      ListAll (fun p : ℤ × ℤ =>
          1 ≤ p.1 ∧ p.1 < twoEpisodeState.current_size ∧ 1 ≤ p.2 ∧
            (2 ≤ twoEpisodeState.memory.episode_length p.1 →
              p.2 ≤ twoEpisodeState.memory.episode_length p.1 - 1) ∧
            (twoEpisodeState.memory.episode_length p.1 = 1 → p.2 = 1))
        (sample_indices twoEpisodeState [1] [1/2]) :=
  ⟨by norm_num, C5_sampling_domain twoEpisodeState [1] [1/2]
    (by decide) (by norm_num) (fun _ => le_refl 1)⟩

/-- Subtracting the previous-mask from a batch of index pairs decrements
every step index by one and leaves every episode index unchanged. -/
theorem previousMask_sub (idx : List (ℤ × ℤ)) :
    subtractIndices idx (previousMask idx.length) =
      idx.map (fun p => (p.1, p.2 - 1)) := by
  induction idx with
  | nil => rfl
  | cons p l ih =>
      show subtractIndices (p :: l) (previousMask (l.length + 1)) = _
      rw [show previousMask (l.length + 1) = (0, 1) :: previousMask l.length from rfl,
        show subtractIndices (p :: l) ((0, 1) :: previousMask l.length) =
          (p.1 - 0, p.2 - 1) :: subtractIndices l (previousMask l.length) from rfl,
        ih]
      simp

/-- Claim C6: in the SARS batch, the `state` field is gathered from the
stored `state_next` subtree at `(e, s - 1)` for every index pair `(e, s)`,
while `action`, `reward`, `done` and `state_next` are gathered at
`(e, s)`, all preserving the order of the index list. -/
theorem C6_sars_gather {A R S : Type} (st : MemState A R S) (idx : List (ℤ × ℤ)) :
    (get_sars_batch st idx).state =
        idx.map (fun p => st.memory.state_next p.1 (p.2 - 1)) ∧
      (get_sars_batch st idx).action = idx.map (fun p => st.memory.action p.1 p.2) ∧
      (get_sars_batch st idx).reward = idx.map (fun p => st.memory.reward p.1 p.2) ∧
      (get_sars_batch st idx).done = idx.map (fun p => st.memory.done p.1 p.2) ∧
      (get_sars_batch st idx).state_next = idx.map (fun p => st.memory.state_next p.1 p.2) := by
  refine ⟨?_, rfl, rfl, rfl, rfl⟩
  show gatherND st.memory.state_next (subtractIndices idx (previousMask idx.length)) = _
  rw [previousMask_sub]
  simp [gatherND, List.map_map]

/-- Counterexample to claim C7 as stated: the index `-1` lies outside
`[0, used_size]`, yet `get_episode` does not raise (its only check is
`index ≤ used_size`). -/
theorem C7_get_episode_cex :
    (get_episode (initState (0 : ℤ) (0 : ℤ) (0 : ℤ)) (-1)).isSome = true ∧
      (-1 : ℤ) < 0 := by
  decide

/-- Claim C7 (amended): `get_episode(index)` raises if and only if
`index > used_size`; every index `≤ used_size` (including
`index = used_size` and negative indices) passes the check, and for
`0 ≤ index ≤ used_size` the slot content (first `episode_length[index]`
rows per leaf) is returned. -/
theorem C7_index_check {A R S : Type} (st : MemState A R S) (i : ℤ) :
    (get_episode st i = none ↔ st.current_size < i) ∧
      (i ≤ st.current_size → get_episode st i = some (episodeRows st i)) := by
  constructor
  · unfold get_episode
    split_ifs with h
    · simp
      omega
    · simp
      omega
  · intro h
    unfold get_episode
    rw [if_pos h]

/-- Witness for C7 (amended) at index 0 of a fresh memory. -/
theorem C7_index_check_witness :
    (0 : ℤ) ≤ (initState (0 : ℤ) (0 : ℤ) (0 : ℤ)).current_size ∧
      get_episode (initState (0 : ℤ) (0 : ℤ) (0 : ℤ)) 0 =
        some (episodeRows (initState (0 : ℤ) (0 : ℤ) (0 : ℤ)) 0) :=
  ⟨by decide, (C7_index_check (initState (0 : ℤ) (0 : ℤ) (0 : ℤ)) 0).2 (by decide)⟩

/-- Claim C8: `sample_random_batch` raises exactly when
`batch_size > used_size` (the source-level assert) or `used_size < 2` (the
int32 `random_uniform` kernel rejects `minval = 1 ≥ maxval = used_size`);
in particular `used_size = 1` with `batch_size = 1` raises rather than
returning indices. -/
theorem C8_sampling_guard {A R S : Type} (cfg : Config) (st : MemState A R S)
    (es : List ℤ) (us : List ℚ) :
    sample_random_batch cfg st es us = none ↔
      (st.current_size < cfg.batchSize ∨ st.current_size < 2) := by
  unfold sample_random_batch sample_indices_op
  split_ifs with h1 h2
  · simp
    omega
  · simp
    omega
  · simp
    omega

/-- Claim C10: immediately after construction every `episode_length` entry
equals 1 (from `tf.ones`), and `get_episode` on a slot never targeted by a
commit returns exactly one row per leaf — the zero-initialised row — not
an empty episode. -/
theorem C10_initial_length_one {A R S : Type} (a0 : A) (r0 : R) (s0 : S) (cfg : Config)
    (rs : List (Record A R S)) (i : ℤ)
    (hi : i ∉ commitPositions cfg (initState a0 r0 s0) rs) :
    (∀ j : ℤ, (initState a0 r0 s0).memory.episode_length j = 1) ∧
      (List.foldl (add_experience cfg) (initState a0 r0 s0) rs).memory.episode_length i = 1 ∧
      episodeRows (List.foldl (add_experience cfg) (initState a0 r0 s0) rs) i =
        ([a0], [r0], [false], [s0], 1) := by
  obtain ⟨hL, hC⟩ := foldl_untouched cfg rs (initState a0 r0 s0) i hi
  have hL1 : (List.foldl (add_experience cfg) (initState a0 r0 s0) rs).memory.episode_length i
      = 1 := by
    rw [hL]
    rfl
  have hA : (List.foldl (add_experience cfg) (initState a0 r0 s0) rs).memory.action i 0 = a0 :=
    congrArg Record.action (hC 0)
  have hR : (List.foldl (add_experience cfg) (initState a0 r0 s0) rs).memory.reward i 0 = r0 :=
    congrArg Record.reward (hC 0)
  have hD : (List.foldl (add_experience cfg) (initState a0 r0 s0) rs).memory.done i 0 = false :=
    congrArg Record.done (hC 0)
  have hS : (List.foldl (add_experience cfg) (initState a0 r0 s0) rs).memory.state_next i 0
      = s0 := congrArg Record.state_next (hC 0)
  refine ⟨fun _ => rfl, hL1, ?_⟩
  simp only [episodeRows, hL1, Int.toNat_one, List.range_succ, List.range_zero,
    List.nil_append, List.map_cons, List.map_nil, Nat.cast_zero, hA, hR, hD, hS]

/-- Witness for C10: one committed one-step episode at slot 0; slot 1 still
reads back a single zero row with length 1. -/
theorem C10_initial_length_one_witness :
    ((1 : ℤ) ∉ commitPositions (⟨2, 3, 32⟩ : Config) (initState (0 : ℤ) (0 : ℤ) (0 : ℤ))
        [⟨5, 7, true, 9⟩]) ∧
      episodeRows (List.foldl (add_experience (⟨2, 3, 32⟩ : Config))
          (initState (0 : ℤ) (0 : ℤ) (0 : ℤ)) [⟨5, 7, true, 9⟩]) 1 =
        ([0], [0], [false], [0], 1) :=
  ⟨by decide, (C10_initial_length_one 0 0 0 ⟨2, 3, 32⟩ [⟨5, 7, true, 9⟩] 1 (by decide)).2.2⟩

end BTgymReplay
